import Mathlib

/-!
# Verification of the AssemblyFlow motion-comparison core

Shallow embedding of the DTW (Dynamic Time Warping) alignment engine of the
AssemblyFlow backend (`app/core/metrics.py`, `app/core/config.py`, documented
in `Backend/DTW_IMPLEMENTATION.md` and the configuration guide) together with
the frontend utility `calculateCompliancePercentage` (`lib/utils.ts`).

Floating-point numbers of the source are modelled as rationals (`ℚ`), the
`np.inf` initialisation of the cost grid as `⊤` in `WithTop ℚ`, and the
per-joint Euclidean (L2) distances of the aligned-metrics pass as real
numbers (`ℝ`, since they involve a square root).
-/

namespace AssemblyFlow

/-! ## DTW cost grid (`dtw_distance_matrix` in `app/core/metrics.py`)

The source fills an `(n+1) × (m+1)` array initialised to `inf` with
`cost[0,0] = 0`, row by row (`for i in range(1, n+1)`), each row left to
right (`for j in range(1, m+1)`), setting
`cost[i,j] = D[i-1,j-1] + min(cost[i-1,j], cost[i,j-1], cost[i-1,j-1])`.
We embed exactly this evaluation order: `dtwRow D i` is row `i` of the
grid after the outer loop has processed rows `1..i`; within a row,
`dtwRowNext` computes cell `j+1` from the finished previous row `prev`
and the already-updated cells of the current row (the recursive call). -/

/-- One row of the DTW cost grid: row `i+1` (0-based offset `i` into `D`),
computed left to right from the previous row `prev`; column `0` keeps its
`inf` initialisation. Mirrors the inner `for j` loop of
`dtw_distance_matrix`. -/
def dtwRowNext (D : ℕ → ℕ → ℚ) (i : ℕ) (prev : ℕ → WithTop ℚ) : ℕ → WithTop ℚ
  | 0 => ⊤
  | j + 1 =>
    (D i j : WithTop ℚ) +
      min (prev (j + 1)) (min (dtwRowNext D i prev j) (prev j))

/-- Row `i` of the DTW cost grid. Row `0` is the initialisation
(`cost[0,0] = 0`, every other cell `inf`); row `i+1` is produced from row
`i` by the inner loop. Mirrors the outer `for i` loop of
`dtw_distance_matrix`. -/
def dtwRow (D : ℕ → ℕ → ℚ) : ℕ → ℕ → WithTop ℚ
  | 0 => fun j => if j = 0 then (0 : WithTop ℚ) else ⊤
  | i + 1 => dtwRowNext D i (dtwRow D i)

/-- Cell `(i, j)` of the DTW cost grid built by `dtw_distance_matrix`
from the distance matrix `D`. -/
def cost (D : ℕ → ℕ → ℚ) (i j : ℕ) : WithTop ℚ := dtwRow D i j

/-- The DTW recurrence exactly as the specification states it:
`cost(0,0) = 0`, `cost(i,0) = +∞` for `i > 0`, `cost(0,j) = +∞` for
`j > 0`, and `cost(i,j) = D(i-1,j-1) + min(cost(i-1,j), cost(i,j-1),
cost(i-1,j-1))` for `i, j ≥ 1`. Stated as a straight recursion, to be
compared with the loop-order definition `cost` taken from the source. -/
def costSpec (D : ℕ → ℕ → ℚ) : ℕ → ℕ → WithTop ℚ
  | 0, 0 => 0
  | _ + 1, 0 => ⊤
  | 0, _ + 1 => ⊤
  | i + 1, j + 1 =>
    (D i j : WithTop ℚ) +
      min (costSpec D i (j + 1)) (min (costSpec D (i + 1) j) (costSpec D i j))

/-! ## Banded (Sakoe-Chiba) cost grid

The windowed variant of `dtw_distance_matrix` restricts row `i` of the
loop to columns `j` in `[max(1, i - window), min(m + 1, i + window + 1))`;
every cell outside that band keeps its `inf` initialisation. -/

/-- One row of the banded DTW cost grid: row `i+1`, restricted to the
Sakoe-Chiba band of radius `w` over an `m`-column distance matrix.
Mirrors the inner loop `for j in range(j_start, j_end)` with
`j_start = max(1, i - window)` and `j_end = min(m + 1, i + window + 1)`. -/
def dtwBandRowNext (D : ℕ → ℕ → ℚ) (m w i : ℕ) (prev : ℕ → WithTop ℚ) :
    ℕ → WithTop ℚ
  | 0 => ⊤
  | j + 1 =>
    if max 1 ((i : ℤ) + 1 - w) ≤ (j : ℤ) + 1 ∧
        (j : ℤ) + 1 < min ((m : ℤ) + 1) ((i : ℤ) + 1 + w + 1) then
      (D i j : WithTop ℚ) +
        min (prev (j + 1)) (min (dtwBandRowNext D m w i prev j) (prev j))
    else ⊤

/-- Row `i` of the banded DTW cost grid. -/
def dtwBandRow (D : ℕ → ℕ → ℚ) (m w : ℕ) : ℕ → ℕ → WithTop ℚ
  | 0 => fun j => if j = 0 then (0 : WithTop ℚ) else ⊤
  | i + 1 => dtwBandRowNext D m w i (dtwBandRow D m w i)

/-- Cell `(i, j)` of the banded DTW cost grid with band radius `w` over an
`m`-column distance matrix. -/
def costBand (D : ℕ → ℕ → ℚ) (m w i j : ℕ) : WithTop ℚ := dtwBandRow D m w i j

/-! ## Path reconstruction (`backtrack` in `app/core/metrics.py`) -/

/-- Modelled from the spec: the body of `backtrack` is not in the source
tree (`dtw_distance_matrix` only calls it). Following the spec, from grid
cell `(a+1, b+1)` the walk moves to whichever of the three predecessor
cells — diagonal `(a, b)`, up `(a, b+1)`, left `(a+1, b)` — produced the
recorded minimum, with the fixed deterministic tie-break order diagonal
over up, up over left. -/
def nextCell (D : ℕ → ℕ → ℚ) (a b : ℕ) : ℕ × ℕ :=
  if cost D a b ≤ cost D a (b + 1) ∧ cost D a b ≤ cost D (a + 1) b then (a, b)
  else if cost D a (b + 1) ≤ cost D (a + 1) b then (a, b + 1)
  else (a + 1, b)

/-- Modelled from the spec: fuel-indexed walk from cell `(a, b)` of the
cost grid back to `(0, 0)` (cell `(1, 1)`), emitting the 0-based index
pair of each visited cell; `fuel = a + b` always suffices since every
step lowers `a + b`. The emitted path is in forward order, ending at the
pair of the starting cell. -/
def backtrackAux (D : ℕ → ℕ → ℚ) : ℕ → ℕ → ℕ → List (ℕ × ℕ)
  | 0, _, _ => []
  | _ + 1, 0, _ => []
  | _ + 1, _ + 1, 0 => []
  | f + 1, a + 1, b + 1 =>
    if a = 0 ∧ b = 0 then [(0, 0)]
    else backtrackAux D f (nextCell D a b).1 (nextCell D a b).2 ++ [(a, b)]

/-- Modelled from the spec: path reconstruction starting from grid cell
`(n, m)`, producing the alignment path of 0-based index pairs from
`(0, 0)` to `(n-1, m-1)`. -/
def backtrack (D : ℕ → ℕ → ℚ) (n m : ℕ) : List (ℕ × ℕ) :=
  backtrackAux D (n + m) n m

/-- One alignment-path step as the data model requires it: each of the
two indices advances by zero or one unit, and they are never both
unchanged. -/
def stepOk (p q : ℕ × ℕ) : Prop :=
  (q.1 = p.1 ∨ q.1 = p.1 + 1) ∧ (q.2 = p.2 ∨ q.2 = p.2 + 1) ∧ p ≠ q

/-- `dtw_distance_matrix D n m`: the total alignment cost (cell `(n, m)`
of the cost grid) together with the reconstructed alignment path, as
returned by `dtw_distance_matrix` in `app/core/metrics.py`. -/
def dtw_distance_matrix (D : ℕ → ℕ → ℚ) (n m : ℕ) :
    WithTop ℚ × List (ℕ × ℕ) :=
  (cost D n m, backtrack D n m)

/-! ## Similarity mapping (`app/core/metrics.py`) -/

/-- `normalized_distance = total_cost / path_length`. -/
def normalized_distance (total_cost : ℚ) (path_length : ℕ) : ℚ :=
  total_cost / path_length

/-- `1.0 / (1.0 + nd)`, the map from a normalized distance to a 0-1
similarity. -/
def similarityOfNd (nd : ℚ) : ℚ := 1 / (1 + nd)

/-- `similarity = 1.0 / (1.0 + normalized_distance)`. -/
def similarity (total_cost : ℚ) (path_length : ℕ) : ℚ :=
  similarityOfNd (normalized_distance total_cost path_length)

/-! ## `run_dtw` and the FastDTW fallback -/

/-- Result of one `run_dtw` call: total cost, alignment path, and the
name of the DTW variant actually used (the `method` field of the API
response). -/
structure RunDtwResult where
  total : WithTop ℚ
  path : List (ℕ × ℕ)
  method : String
deriving DecidableEq

/-- Modelled from the spec: the body of `run_dtw` in
`app/core/metrics.py` is not in the source tree beyond its documented
skeleton. When `use_fastdtw` is set and `max(n, m) > 1000`, it tries
to load `fastdtw`; `fastdtwAvailable` models whether that load succeeds
and `fastdtwImpl` the approximate algorithm itself. On `ImportError` it
falls back to the exact/banded algorithm, and the result records the
method actually used. -/
def run_dtw (fastdtwAvailable : Bool)
    (fastdtwImpl : (ℕ → ℕ → ℚ) → ℕ → ℕ → WithTop ℚ × List (ℕ × ℕ))
    (use_fastdtw : Bool) (D : ℕ → ℕ → ℚ) (n m : ℕ) : RunDtwResult :=
  if use_fastdtw ∧ 1000 < max n m then
    if fastdtwAvailable then
      ⟨(fastdtwImpl D n m).1, (fastdtwImpl D n m).2, "fastdtw"⟩
    else
      ⟨(dtw_distance_matrix D n m).1, (dtw_distance_matrix D n m).2, "dtw"⟩
  else
    ⟨(dtw_distance_matrix D n m).1, (dtw_distance_matrix D n m).2, "dtw"⟩

/-! ## Configuration (`app/core/config.py`) -/

/-- The `DTWConfig` dataclass of `app/core/config.py`, as documented in
the configuration guide. -/
structure DTWConfig where
  frame_sample_rate : ℕ
  smoothing_window : ℕ
  use_window : Bool
  window_percentage : ℚ
  use_fastdtw : Bool
  stressed_joint_threshold : ℚ
  similarity_scale : String

/-- Modelled from the spec: `set_dtw_config(config)` of
`app/core/config.py` replaces the process-wide configuration; "all
subsequent comparisons use this config". The global state is the current
`DTWConfig`. -/
def set_dtw_config (c : DTWConfig) (_s : DTWConfig) : DTWConfig := c

/-- The Sakoe-Chiba radius derived from a configuration:
`window = int(window_percentage * max(n, m))`. -/
def dtw_window_of (c : DTWConfig) (n m : ℕ) : ℕ :=
  (⌊c.window_percentage * (max n m : ℚ)⌋).toNat

/-- The alignment cost a comparison computes under a given
configuration: the banded grid with the configured radius when
`use_window` is set, the unconstrained grid otherwise. -/
def compare_with_config (D : ℕ → ℕ → ℚ) (n m : ℕ) (c : DTWConfig) : WithTop ℚ :=
  if c.use_window then costBand D m (dtw_window_of c n m) n m
  else cost D n m

/-- Modelled from the spec: a comparison reads the process-wide
configuration (`get_dtw_config()`), computes its result under it, and
leaves the global state unchanged. Returns the result together with the
post-call state. -/
def compare_global (D : ℕ → ℕ → ℚ) (n m : ℕ) (s : DTWConfig) :
    WithTop ℚ × DTWConfig :=
  (compare_with_config D n m s, s)

/-- A concrete 3×3 distance matrix whose cheapest alignment path runs
off the diagonal, so that banding visibly changes the alignment cost. -/
def Dex : ℕ → ℕ → ℚ := fun i j =>
  if (i = 0 ∧ j = 0) ∨ (i = 0 ∧ j = 1) ∨ (i = 1 ∧ j = 2) ∨ (i = 2 ∧ j = 2)
  then 0 else 9

/-- The balanced preset of `app/core/config.py`: windowing enabled at
15 %. -/
def balancedConfig : DTWConfig :=
  ⟨1, 3, true, 15 / 100, false, 25 / 100, "0-1"⟩

/-- The balanced preset with windowing turned off (as the precise preset
does). -/
def noWindowConfig : DTWConfig :=
  ⟨1, 3, false, 15 / 100, false, 25 / 100, "0-1"⟩

/-! ## Aligned metrics (`per_joint_deviation` in `app/core/metrics.py`) -/

/-- Number of tracked body joints (MoveNet skeleton). -/
def numJoints : ℕ := 17

/-- Euclidean (L2) distance between two normalized 2-D joint
positions. -/
noncomputable def L2_distance (p q : ℝ × ℝ) : ℝ :=
  Real.sqrt ((p.1 - q.1) ^ 2 + (p.2 - q.2) ^ 2)

/-- The accumulation loop of `per_joint_deviation`: for every step
`(i, j)` of the DTW path, add the per-joint L2 distance between joint
`joint` of reference frame `i` and of user frame `j` to that joint's
accumulator. `framesRef k` and `framesUser k` give the normalized joint
positions of frame `k`. -/
noncomputable def accumulateDeviations (framesRef framesUser : ℕ → ℕ → ℝ × ℝ)
    (path : List (ℕ × ℕ)) : ℕ → ℝ :=
  path.foldl
    (fun acc ij => fun joint =>
      acc joint + L2_distance (framesRef ij.1 joint) (framesUser ij.2 joint))
    (fun _ => 0)

/-- `per_joint_deviation`: mean per-joint deviation vector — one entry
per body joint — obtained by accumulating the per-joint L2 distance over
all alignment-path steps and dividing by the number of path steps. -/
noncomputable def per_joint_deviation (framesRef framesUser : ℕ → ℕ → ℝ × ℝ)
    (path : List (ℕ × ℕ)) : List ℝ :=
  (List.range numJoints).map
    (fun joint => accumulateDeviations framesRef framesUser path joint / path.length)

/-! ## Frontend utility (`lib/utils.ts`) -/

/-- `calculateCompliancePercentage` of `Frontend/lib/utils.ts`:
`totalSteps > 0 ? (correctSteps / totalSteps) * 100 : 0`. -/
def calculateCompliancePercentage (correctSteps totalSteps : ℚ) : ℚ :=
  if 0 < totalSteps then correctSteps / totalSteps * 100 else 0

end AssemblyFlow

namespace AssemblyFlow

theorem cost_zero_zero (D : ℕ → ℕ → ℚ) : cost D 0 0 = 0 := rfl

theorem cost_succ_zero (D : ℕ → ℕ → ℚ) (i : ℕ) : cost D (i + 1) 0 = ⊤ := rfl

theorem cost_zero_succ (D : ℕ → ℕ → ℚ) (j : ℕ) : cost D 0 (j + 1) = ⊤ := rfl

theorem cost_succ_succ (D : ℕ → ℕ → ℚ) (i j : ℕ) :
    cost D (i + 1) (j + 1) =
      (D i j : WithTop ℚ) +
        min (cost D i (j + 1)) (min (cost D (i + 1) j) (cost D i j)) := rfl

/-- The loop-order grid agrees with the specification recurrence
everywhere. -/
theorem cost_eq_costSpec (D : ℕ → ℕ → ℚ) : ∀ i j, cost D i j = costSpec D i j := by
  intro i
  induction i with
  | zero =>
    intro j
    cases j with
    | zero => simp [costSpec, cost_zero_zero]
    | succ j => simp [costSpec, cost_zero_succ]
  | succ i ih =>
    intro j
    induction j with
    | zero => simp [costSpec, cost_succ_zero]
    | succ j ihj =>
      rw [cost_succ_succ, costSpec, ih (j + 1), ihj, ih j]

theorem add_min3_ne_top {q : ℚ} {x y z : WithTop ℚ}
    (h : x ≠ ⊤ ∨ y ≠ ⊤ ∨ z ≠ ⊤) :
    (q : WithTop ℚ) + min x (min y z) ≠ ⊤ := by
  intro hc
  rcases WithTop.add_eq_top.mp hc with h1 | h2
  · exact WithTop.coe_ne_top h1
  · have hx := min_le_left x (min y z)
    have hy := le_trans (min_le_right x (min y z)) (min_le_left y z)
    have hz := le_trans (min_le_right x (min y z)) (min_le_right y z)
    rw [h2] at hx hy hz
    rcases h with h | h | h
    · exact h (top_le_iff.mp hx)
    · exact h (top_le_iff.mp hy)
    · exact h (top_le_iff.mp hz)

/-- Every interior cell of the cost grid is finite: the grid assigns a
real (non-`inf`) total to every cell reachable from `(0, 0)`. -/
theorem cost_ne_top (D : ℕ → ℕ → ℚ) : ∀ i j, cost D (i + 1) (j + 1) ≠ ⊤ := by
  intro i
  induction i with
  | zero =>
    intro j
    induction j with
    | zero =>
      rw [cost_succ_succ]
      exact add_min3_ne_top (Or.inr (Or.inr (by rw [cost_zero_zero]; exact WithTop.zero_ne_top)))
    | succ j ihj =>
      rw [cost_succ_succ]
      exact add_min3_ne_top (Or.inr (Or.inl ihj))
  | succ i ih =>
    intro j
    rw [cost_succ_succ]
    exact add_min3_ne_top (Or.inl (ih j))

/-- Every cell of the cost grid is nonnegative when the distance matrix
is. -/
theorem cost_nonneg (D : ℕ → ℕ → ℚ) (hD : ∀ i j, 0 ≤ D i j) :
    ∀ i j, 0 ≤ cost D i j := by
  intro i
  induction i with
  | zero =>
    intro j
    cases j with
    | zero => rw [cost_zero_zero]
    | succ j => rw [cost_zero_succ]; exact le_top
  | succ i ih =>
    intro j
    induction j with
    | zero => rw [cost_succ_zero]; exact le_top
    | succ j ihj =>
      rw [cost_succ_succ]
      have h0 : (0 : WithTop ℚ) ≤ (D i j : WithTop ℚ) := by exact_mod_cast hD i j
      exact add_nonneg h0 (le_min (ih (j + 1)) (le_min ihj (ih j)))

theorem costBand_zero (D : ℕ → ℕ → ℚ) (m w j : ℕ) :
    costBand D m w 0 j = cost D 0 j := rfl

theorem costBand_succ_zero (D : ℕ → ℕ → ℚ) (m w i : ℕ) :
    costBand D m w (i + 1) 0 = ⊤ := rfl

theorem costBand_succ_succ (D : ℕ → ℕ → ℚ) (m w i j : ℕ) :
    costBand D m w (i + 1) (j + 1) =
      if max 1 ((i : ℤ) + 1 - w) ≤ (j : ℤ) + 1 ∧
          (j : ℤ) + 1 < min ((m : ℤ) + 1) ((i : ℤ) + 1 + w + 1) then
        (D i j : WithTop ℚ) +
          min (costBand D m w i (j + 1))
            (min (costBand D m w (i + 1) j) (costBand D m w i j))
      else ⊤ := rfl

/-- Banding can only raise or preserve a cell of the cost grid, never
lower it. -/
theorem cost_le_costBand (D : ℕ → ℕ → ℚ) (m w : ℕ) :
    ∀ i j, cost D i j ≤ costBand D m w i j := by
  intro i
  induction i with
  | zero => intro j; rw [costBand_zero]
  | succ i ih =>
    intro j
    induction j with
    | zero => rw [cost_succ_zero, costBand_succ_zero]
    | succ j ihj =>
      rw [cost_succ_succ, costBand_succ_succ]
      split_ifs with hcond
      · exact add_le_add_left (min_le_min (ih (j + 1)) (min_le_min ihj (ih j))) _
      · exact le_top

/-- Once the band radius covers the whole grid up to `(i, j)`, every
banded cell agrees with the unconstrained one. -/
theorem costBand_eq_cost (D : ℕ → ℕ → ℚ) (m w : ℕ) :
    ∀ i j, j ≤ m → max i j ≤ w + 1 → costBand D m w i j = cost D i j := by
  intro i
  induction i with
  | zero => intro j _ _; rw [costBand_zero]
  | succ i ih =>
    intro j
    induction j with
    | zero => intro _ _; rw [cost_succ_zero, costBand_succ_zero]
    | succ j ihj =>
      intro hjm hw
      have hcond : max 1 ((i : ℤ) + 1 - w) ≤ (j : ℤ) + 1 ∧
          (j : ℤ) + 1 < min ((m : ℤ) + 1) ((i : ℤ) + 1 + w + 1) := by
        constructor <;> omega
      rw [cost_succ_succ, costBand_succ_succ, if_pos hcond,
        ih (j + 1) hjm (by omega), ihj (by omega) (by omega),
        ih j (by omega) (by omega)]

theorem nextCell_cases (D : ℕ → ℕ → ℚ) (a b : ℕ) :
    nextCell D a b = (a, b) ∨ nextCell D a b = (a, b + 1) ∨
      nextCell D a b = (a + 1, b) := by
  unfold nextCell
  split_ifs <;> simp

/-- The cell the backtracking walk moves to never leaves the interior of
the grid: from any cell other than `(1, 1)` both coordinates of the
chosen predecessor stay positive, because the `inf` boundary cells never
attain the recorded minimum. -/
theorem nextCell_pos (D : ℕ → ℕ → ℚ) (a b : ℕ) (h : ¬(a = 0 ∧ b = 0)) :
    1 ≤ (nextCell D a b).1 ∧ 1 ≤ (nextCell D a b).2 := by
  match a, b with
  | 0, 0 => exact absurd ⟨rfl, rfl⟩ h
  | 0, b + 1 =>
    have h2 : cost D 1 (b + 1) ≠ ⊤ := cost_ne_top D 0 b
    have hc1 : ¬(cost D 0 (b + 1) ≤ cost D 0 (b + 2) ∧
        cost D 0 (b + 1) ≤ cost D 1 (b + 1)) := by
      rintro ⟨-, hle⟩
      rw [cost_zero_succ] at hle
      exact h2 (top_le_iff.mp hle)
    have hc2 : ¬(cost D 0 (b + 2) ≤ cost D 1 (b + 1)) := by
      rw [cost_zero_succ]
      intro hle
      exact h2 (top_le_iff.mp hle)
    unfold nextCell
    rw [if_neg hc1, if_neg hc2]
    exact ⟨le_refl 1, by omega⟩
  | a + 1, 0 =>
    have h2 : cost D (a + 1) 1 ≠ ⊤ := cost_ne_top D a 0
    have hc1 : ¬(cost D (a + 1) 0 ≤ cost D (a + 1) 1 ∧
        cost D (a + 1) 0 ≤ cost D (a + 2) 0) := by
      rintro ⟨hle, -⟩
      rw [cost_succ_zero] at hle
      exact h2 (top_le_iff.mp hle)
    have hc2 : cost D (a + 1) (0 + 1) ≤ cost D (a + 2) 0 := by
      rw [cost_succ_zero]
      exact le_top
    unfold nextCell
    rw [if_neg hc1, if_pos hc2]
    exact ⟨by omega, le_refl 1⟩
  | a + 1, b + 1 =>
    rcases nextCell_cases D (a + 1) (b + 1) with hc | hc | hc <;>
      rw [hc] <;> exact ⟨by omega, by omega⟩

theorem nextCell_sum_le (D : ℕ → ℕ → ℚ) (a b : ℕ) :
    (nextCell D a b).1 + (nextCell D a b).2 ≤ a + b + 1 := by
  rcases nextCell_cases D a b with hc | hc | hc <;> rw [hc] <;> simp <;> omega

theorem backtrackAux_succ (D : ℕ → ℕ → ℚ) (f a b : ℕ) :
    backtrackAux D (f + 1) (a + 1) (b + 1) =
      if a = 0 ∧ b = 0 then [(0, 0)]
      else backtrackAux D f (nextCell D a b).1 (nextCell D a b).2 ++ [(a, b)] := rfl

/-- Structural properties of the reconstructed path from cell `(a, b)`,
given enough fuel: it starts at `(0, 0)`, ends at `(a-1, b-1)`, every
step advances each index by at most one and at least one of them, and its
length lies between `max a b` and `a + b - 1`. -/
theorem backtrackAux_spec (D : ℕ → ℕ → ℚ) :
    ∀ f a b, 1 ≤ a → 1 ≤ b → a + b ≤ f →
      (backtrackAux D f a b).head? = some (0, 0) ∧
      (backtrackAux D f a b).getLast? = some (a - 1, b - 1) ∧
      List.Chain' stepOk (backtrackAux D f a b) ∧
      max a b ≤ (backtrackAux D f a b).length ∧
      (backtrackAux D f a b).length ≤ a + b - 1 := by
  intro f
  induction f with
  | zero =>
    intro a b ha hb hf
    exact absurd hf (by omega)
  | succ f ih =>
    intro a b ha hb hf
    obtain ⟨a, rfl⟩ : ∃ a0, a = a0 + 1 := ⟨a - 1, by omega⟩
    obtain ⟨b, rfl⟩ : ∃ b0, b = b0 + 1 := ⟨b - 1, by omega⟩
    rw [backtrackAux_succ]
    by_cases h00 : a = 0 ∧ b = 0
    · obtain ⟨rfl, rfl⟩ := h00
      rw [if_pos ⟨rfl, rfl⟩]
      exact ⟨rfl, rfl, List.chain'_singleton _, by simp, by simp⟩
    · rw [if_neg h00]
      have hpos := nextCell_pos D a b h00
      have hsum := nextCell_sum_le D a b
      have hcases := nextCell_cases D a b
      rcases hnc : nextCell D a b with ⟨ca, cb⟩
      rw [hnc] at hpos hsum hcases
      simp only [Prod.mk.injEq] at hcases
      simp only [] at hpos hsum
      obtain ⟨hca, hcb⟩ := hpos
      obtain ⟨ihead, ilast, ichain, ilen1, ilen2⟩ :=
        ih ca cb hca hcb (by omega)
      cases hbl : backtrackAux D f ca cb with
      | nil => rw [hbl] at ihead; exact absurd ihead (by simp)
      | cons x t =>
        rw [hbl] at ihead ilast ichain ilen1 ilen2
        have hx : x = (0, 0) := by simpa using ihead
        refine ⟨by simp [hx], ?_, ?_, ?_, ?_⟩
        · rw [List.getLast?_concat]
          simp
        · rw [List.chain'_append]
          refine ⟨ichain, List.chain'_singleton _, ?_⟩
          intro p hp q hq
          rw [ilast] at hp
          simp only [List.head?_cons, Option.mem_def, Option.some.injEq] at hp hq
          subst hp
          subst hq
          simp only [stepOk, Prod.ext_iff, ne_eq, Prod.mk.injEq, not_and]
          omega
        · simp only [List.length_append, List.length_cons, List.length_nil] at ilen1 ⊢
          omega
        · simp only [List.length_append, List.length_cons, List.length_nil] at ilen2 ⊢
          omega

/-- When the distance matrix vanishes on the diagonal and is nonnegative,
every diagonal cell of the cost grid is `0`. -/
theorem cost_diag_zero (D : ℕ → ℕ → ℚ) (hdiag : ∀ i, D i i = 0)
    (hnn : ∀ i j, 0 ≤ D i j) : ∀ k, cost D k k = 0 := by
  intro k
  induction k with
  | zero => rw [cost_zero_zero]
  | succ k ih =>
    have h1 : (0 : WithTop ℚ) ≤ cost D k (k + 1) := cost_nonneg D hnn k (k + 1)
    have h2 : (0 : WithTop ℚ) ≤ cost D (k + 1) k := cost_nonneg D hnn (k + 1) k
    rw [cost_succ_succ, hdiag k, ih, min_eq_right h2, min_eq_right h1]
    simp

/-- Under the same hypotheses the backtracking walk from a diagonal cell
always chooses the diagonal predecessor. -/
theorem nextCell_diag (D : ℕ → ℕ → ℚ) (hdiag : ∀ i, D i i = 0)
    (hnn : ∀ i j, 0 ≤ D i j) (a : ℕ) : nextCell D a a = (a, a) := by
  have h0 := cost_diag_zero D hdiag hnn a
  unfold nextCell
  rw [if_pos ⟨h0.trans_le (cost_nonneg D hnn a (a + 1)),
    h0.trans_le (cost_nonneg D hnn (a + 1) a)⟩]

theorem backtrack_diag_aux (D : ℕ → ℕ → ℚ) (hdiag : ∀ i, D i i = 0)
    (hnn : ∀ i j, 0 ≤ D i j) :
    ∀ f k, 1 ≤ k → k + k ≤ f →
      backtrackAux D f k k = (List.range k).map (fun t => (t, t)) := by
  intro f
  induction f with
  | zero =>
    intro k hk hf
    exact absurd hf (by omega)
  | succ f ih =>
    intro k hk hf
    obtain ⟨k, rfl⟩ : ∃ k0, k = k0 + 1 := ⟨k - 1, by omega⟩
    rw [backtrackAux_succ]
    by_cases h00 : k = 0
    · subst h00
      rw [if_pos ⟨rfl, rfl⟩]
      rfl
    · rw [if_neg (fun hc => h00 hc.1), nextCell_diag D hdiag hnn k]
      rw [show ((k, k) : ℕ × ℕ).1 = k from rfl, show ((k, k) : ℕ × ℕ).2 = k from rfl]
      rw [ih k (by omega) (by omega), List.range_succ]
      simp

/-- Closed form of the accumulation loop of `per_joint_deviation`: the
function-valued fold adds, joint by joint, the sum of the per-step
distances to the initial accumulator. -/
theorem accumulateDeviations_eq (framesRef framesUser : ℕ → ℕ → ℝ × ℝ) :
    ∀ (path : List (ℕ × ℕ)) (g : ℕ → ℝ) (joint : ℕ),
      path.foldl
        (fun acc ij => fun j =>
          acc j + L2_distance (framesRef ij.1 j) (framesUser ij.2 j)) g joint =
        g joint +
          (path.map
            (fun ij => L2_distance (framesRef ij.1 joint) (framesUser ij.2 joint))).sum := by
  intro path
  induction path with
  | nil =>
    intro g joint
    simp
  | cons p t ih =>
    intro g joint
    simp only [List.foldl_cons, List.map_cons, List.sum_cons]
    rw [ih]
    ring

/-! ## Claim theorems -/

/-- C1: The DTW aligner computes its cost grid exactly by the specified
recurrence: over an `(N+1)×(M+1)` grid, `cost(0,0) = 0`,
`cost(i,0) = +∞` for `i > 0`, `cost(0,j) = +∞` for `j > 0`, and for
`i, j ≥ 1`, `cost(i,j) = D(i-1,j-1) + min(cost(i-1,j), cost(i,j-1),
cost(i-1,j-1))`; the total alignment cost returned is `cost(N,M)`.
The loop-order grid of the source agrees with `costSpec`, the recurrence
written exactly as the specification states it. -/
theorem dtw_cost_recurrence (D : ℕ → ℕ → ℚ) (n m : ℕ) :
    cost D 0 0 = 0 ∧
    (∀ i, cost D (i + 1) 0 = ⊤) ∧
    (∀ j, cost D 0 (j + 1) = ⊤) ∧
    (∀ i j, cost D (i + 1) (j + 1) =
      (D i j : WithTop ℚ) +
        min (cost D i (j + 1)) (min (cost D (i + 1) j) (cost D i j))) ∧
    (∀ i j, cost D i j = costSpec D i j) ∧
    (dtw_distance_matrix D n m).1 = costSpec D n m :=
  ⟨rfl, fun _ => rfl, fun _ => rfl, fun _ _ => rfl,
    cost_eq_costSpec D, cost_eq_costSpec D n m⟩

/-- C2: For every pair of valid (non-empty) sequences of lengths `N` and
`M`, the alignment path returned has length at least `max(N, M)` and at
most `N + M - 1`. Stated over an arbitrary distance matrix `D`, which
covers the matrix built from any pair of feature sequences. -/
theorem dtw_path_length_bounds (D : ℕ → ℕ → ℚ) (n m : ℕ)
    (hn : 1 ≤ n) (hm : 1 ≤ m) :
    max n m ≤ (dtw_distance_matrix D n m).2.length ∧
    (dtw_distance_matrix D n m).2.length ≤ n + m - 1 := by
  obtain ⟨-, -, -, h4, h5⟩ := backtrackAux_spec D (n + m) n m hn hm le_rfl
  exact ⟨h4, h5⟩

theorem dtw_path_length_bounds_witness :
    max 2 3 ≤ (dtw_distance_matrix (fun _ _ => (1 : ℚ)) 2 3).2.length ∧
    (dtw_distance_matrix (fun _ _ => (1 : ℚ)) 2 3).2.length ≤ 2 + 3 - 1 :=
  dtw_path_length_bounds (fun _ _ => (1 : ℚ)) 2 3 (by norm_num) (by norm_num)

/-- C3: Every alignment path produced by path reconstruction starts at
`(0,0)`, ends at `(N-1,M-1)`, and at each step advances `i` and/or `j`
by exactly one unit — never both unchanged, never skipping. The
reconstruction (`backtrack`, with the deterministic tie-break diagonal
over up over left) is a function of the cost grid, so the path is
uniquely determined by it. -/
theorem dtw_path_structure (D : ℕ → ℕ → ℚ) (n m : ℕ)
    (hn : 1 ≤ n) (hm : 1 ≤ m) :
    (dtw_distance_matrix D n m).2.head? = some (0, 0) ∧
    (dtw_distance_matrix D n m).2.getLast? = some (n - 1, m - 1) ∧
    List.Chain' stepOk (dtw_distance_matrix D n m).2 := by
  obtain ⟨h1, h2, h3, -, -⟩ := backtrackAux_spec D (n + m) n m hn hm le_rfl
  exact ⟨h1, h2, h3⟩

theorem dtw_path_structure_witness :
    (dtw_distance_matrix (fun i j => (i : ℚ) * j) 2 2).2.head? = some (0, 0) ∧
    (dtw_distance_matrix (fun i j => (i : ℚ) * j) 2 2).2.getLast? = some (1, 1) ∧
    List.Chain' stepOk (dtw_distance_matrix (fun i j => (i : ℚ) * j) 2 2).2 :=
  dtw_path_structure (fun i j => (i : ℚ) * j) 2 2 (by norm_num) (by norm_num)

/-- C4: The similarity mapper computes
`normalized_distance = total_cost / path_length` and
`similarity = 1 / (1 + normalized_distance)`; for every valid alignment
(`path_length > 0`, nonnegative total cost) the division is well-defined,
the result lies in `(0, 1]`, and similarity is strictly decreasing in the
normalized distance. -/
theorem similarity_mapper_props (c : ℚ) (L : ℕ) (hc : 0 ≤ c) (hL : 0 < L) :
    1 + normalized_distance c L ≠ 0 ∧
    0 < similarity c L ∧ similarity c L ≤ 1 ∧
    ∀ d e : ℚ, 0 ≤ d → d < e → similarityOfNd e < similarityOfNd d := by
  have hL0 : (0 : ℚ) ≤ (L : ℚ) := le_of_lt (by exact_mod_cast hL)
  have hnd : 0 ≤ normalized_distance c L := div_nonneg hc hL0
  have hpos : 0 < 1 + normalized_distance c L := by linarith
  refine ⟨ne_of_gt hpos, ?_, ?_, ?_⟩
  · simp only [similarity, similarityOfNd]
    exact one_div_pos.mpr hpos
  · simp only [similarity, similarityOfNd]
    rw [div_le_one hpos]
    linarith
  · intro d e hd hde
    simp only [similarityOfNd]
    have h1 : (0 : ℚ) < 1 + d := by linarith
    have h2 : (0 : ℚ) < 1 + e := by linarith
    rw [div_lt_div_iff₀ h2 h1, one_mul, one_mul]
    linarith

theorem similarity_mapper_props_witness :
    1 + normalized_distance 2 4 ≠ 0 ∧
    0 < similarity 2 4 ∧ similarity 2 4 ≤ 1 ∧
    similarityOfNd 1 < similarityOfNd 0 := by
  obtain ⟨h1, h2, h3, h4⟩ := similarity_mapper_props 2 4 (by norm_num) (by norm_num)
  exact ⟨h1, h2, h3, h4 0 1 le_rfl (by norm_num)⟩

/-- C5: For every distance matrix and every band radius, the banded
(Sakoe-Chiba) DTW alignment cost is at least the unconstrained exact
alignment cost, and the two are equal whenever the band covers the full
grid (radius at least `max(N, M) - 1`). -/
theorem banded_dtw_bounds (D : ℕ → ℕ → ℚ) (m w n : ℕ) :
    cost D n m ≤ costBand D m w n m ∧
    (max n m ≤ w + 1 → costBand D m w n m = cost D n m) :=
  ⟨cost_le_costBand D m w n m,
    fun h => costBand_eq_cost D m w n m le_rfl h⟩

theorem banded_dtw_bounds_witness :
    cost (fun i j => (i : ℚ) + j) 2 2 ≤ costBand (fun i j => (i : ℚ) + j) 2 2 2 2 ∧
    costBand (fun i j => (i : ℚ) + j) 2 2 2 2 = cost (fun i j => (i : ℚ) + j) 2 2 := by
  obtain ⟨h1, h2⟩ := banded_dtw_bounds (fun i j => (i : ℚ) + j) 2 2 2
  exact ⟨h1, h2 (by norm_num)⟩

/-- C6: For every valid feature sequence, aligning it against itself
yields exactly the diagonal path `((0,0), …, (N-1,N-1))`, a total
alignment cost of `0`, and a similarity of exactly `1`. Stated for any
distance matrix that vanishes on the diagonal and is nonnegative — in
particular the Euclidean distance matrix of a sequence against itself. -/
theorem self_alignment_diagonal (D : ℕ → ℕ → ℚ) (n : ℕ)
    (hdiag : ∀ i, D i i = 0) (hnn : ∀ i j, 0 ≤ D i j) (hn : 1 ≤ n) :
    (dtw_distance_matrix D n n).1 = 0 ∧
    (dtw_distance_matrix D n n).2 = (List.range n).map (fun k => (k, k)) ∧
    similarity ((dtw_distance_matrix D n n).1.untop' 0)
      (dtw_distance_matrix D n n).2.length = 1 := by
  have h1 : cost D n n = 0 := cost_diag_zero D hdiag hnn n
  have h2 : backtrack D n n = (List.range n).map (fun k => (k, k)) :=
    backtrack_diag_aux D hdiag hnn (n + n) n hn le_rfl
  refine ⟨h1, h2, ?_⟩
  show similarity ((cost D n n).untop' 0) (backtrack D n n).length = 1
  rw [h1]
  have h3 : ((0 : WithTop ℚ)).untop' 0 = 0 := rfl
  rw [h3]
  simp [similarity, normalized_distance, similarityOfNd]

theorem self_alignment_diagonal_witness :
    (dtw_distance_matrix (fun i j => |(i : ℚ) - (j : ℚ)|) 2 2).1 = 0 ∧
    (dtw_distance_matrix (fun i j => |(i : ℚ) - (j : ℚ)|) 2 2).2 =
      (List.range 2).map (fun k => (k, k)) ∧
    similarity
      ((dtw_distance_matrix (fun i j => |(i : ℚ) - (j : ℚ)|) 2 2).1.untop' 0)
      (dtw_distance_matrix (fun i j => |(i : ℚ) - (j : ℚ)|) 2 2).2.length = 1 :=
  self_alignment_diagonal (fun i j => |(i : ℚ) - (j : ℚ)|) 2
    (fun i => by simp) (fun i j => abs_nonneg _) (by norm_num)

/-- C7: When approximate (FastDTW) alignment is requested but the
`fastdtw` strategy is unavailable, `run_dtw` silently falls back to the
exact/banded algorithm, returns that algorithm's normal result rather
than an error, and reports the actually-used method in the result. -/
theorem fastdtw_fallback
    (fastdtwImpl : (ℕ → ℕ → ℚ) → ℕ → ℕ → WithTop ℚ × List (ℕ × ℕ))
    (use_fastdtw : Bool) (D : ℕ → ℕ → ℚ) (n m : ℕ) :
    run_dtw false fastdtwImpl use_fastdtw D n m =
      ⟨(dtw_distance_matrix D n m).1, (dtw_distance_matrix D n m).2, "dtw"⟩ := by
  unfold run_dtw
  split_ifs with h1 h2
  · exact absurd h2 (by simp)
  · rfl
  · rfl

/-- C8, counterexample: configuration is not an immutable per-call
snapshot — `set_dtw_config` installs a process-wide configuration and a
comparison's result depends on it, so the same comparison run after two
different `set_dtw_config` calls returns different results. -/
theorem global_config_influences_compare :
    (compare_global Dex 1 3 (set_dtw_config balancedConfig balancedConfig)).1 ≠
      (compare_global Dex 1 3 (set_dtw_config noWindowConfig balancedConfig)).1 := by
  have hw : dtw_window_of balancedConfig 1 3 = 0 := by
    unfold dtw_window_of balancedConfig
    norm_num
  have hL : (compare_global Dex 1 3 (set_dtw_config balancedConfig balancedConfig)).1 =
      costBand Dex 3 0 1 3 := by
    show compare_with_config Dex 1 3 balancedConfig = costBand Dex 3 0 1 3
    unfold compare_with_config
    rw [hw, if_pos (show balancedConfig.use_window = true from rfl)]
  have hTop : costBand Dex 3 0 1 3 = ⊤ := by
    show costBand Dex 3 0 (0 + 1) (2 + 1) = ⊤
    rw [costBand_succ_succ, if_neg]
    push_cast
    omega
  have hR : (compare_global Dex 1 3 (set_dtw_config noWindowConfig balancedConfig)).1 =
      cost Dex 1 3 := by
    show compare_with_config Dex 1 3 noWindowConfig = cost Dex 1 3
    unfold compare_with_config
    rw [if_neg (show ¬noWindowConfig.use_window = true from by simp [noWindowConfig])]
  rw [hL, hTop, hR]
  intro h
  exact cost_ne_top Dex 0 2 h.symm

/-- C8, amended: each comparison reads the process-wide configuration
installed by the most recent `set_dtw_config` call rather than an
immutable per-call argument; its result is determined by the inputs and
that global configuration, and a comparison itself never mutates the
configuration state. -/
theorem compare_depends_on_latest_config (D : ℕ → ℕ → ℚ) (n m : ℕ)
    (c s : DTWConfig) :
    (compare_global D n m (set_dtw_config c s)).1 = compare_with_config D n m c ∧
    (compare_global D n m (set_dtw_config c s)).2 = set_dtw_config c s ∧
    (compare_global D n m s).2 = s :=
  ⟨rfl, rfl, rfl⟩

/-- C9: The aligned metrics engine computes, for every step `(i, j)` on
the alignment path, the per-joint Euclidean distance between the
normalized position of each body joint in frame `i` of A and frame `j`
of B, sums these per joint over all path steps, and divides each sum by
the number of path steps, yielding a mean deviation vector with exactly
one entry per body joint. -/
theorem per_joint_deviation_spec (framesRef framesUser : ℕ → ℕ → ℝ × ℝ)
    (path : List (ℕ × ℕ)) :
    (per_joint_deviation framesRef framesUser path).length = numJoints ∧
    ∀ joint, joint < numJoints →
      (per_joint_deviation framesRef framesUser path).getD joint 0 =
        (path.map
          (fun ij => L2_distance (framesRef ij.1 joint) (framesUser ij.2 joint))).sum /
          path.length := by
  constructor
  · simp [per_joint_deviation]
  · intro joint hj
    unfold per_joint_deviation
    rw [List.getD_eq_getElem?_getD, List.getElem?_map, List.getElem?_range hj]
    show accumulateDeviations framesRef framesUser path joint / path.length = _
    unfold accumulateDeviations
    rw [accumulateDeviations_eq]
    simp

theorem per_joint_deviation_spec_witness :
    (per_joint_deviation (fun _ _ => ((0 : ℝ), (0 : ℝ)))
      (fun _ _ => ((0 : ℝ), (0 : ℝ))) [(0, 0)]).length = numJoints ∧
    (per_joint_deviation (fun _ _ => ((0 : ℝ), (0 : ℝ)))
      (fun _ _ => ((0 : ℝ), (0 : ℝ))) [(0, 0)]).getD 0 0 = 0 := by
  obtain ⟨h1, h2⟩ := per_joint_deviation_spec (fun _ _ => ((0 : ℝ), (0 : ℝ)))
    (fun _ _ => ((0 : ℝ), (0 : ℝ))) [(0, 0)]
  refine ⟨h1, ?_⟩
  rw [h2 0 (by decide)]
  simp [L2_distance]

/-- C10: `calculateCompliancePercentage(correctSteps, totalSteps)` never
divides by zero: for `totalSteps > 0` it returns
`(correctSteps / totalSteps) * 100`, and for `totalSteps ≤ 0` it
returns `0`. -/
theorem compliance_percentage_safe (c t : ℚ) :
    (0 < t → calculateCompliancePercentage c t = c / t * 100) ∧
    (t ≤ 0 → calculateCompliancePercentage c t = 0) := by
  constructor
  · intro h
    unfold calculateCompliancePercentage
    rw [if_pos h]
  · intro h
    unfold calculateCompliancePercentage
    rw [if_neg (not_lt.mpr h)]

theorem compliance_percentage_safe_witness :
    calculateCompliancePercentage 3 4 = 75 ∧
    calculateCompliancePercentage 1 0 = 0 := by
  constructor
  · rw [(compliance_percentage_safe 3 4).1 (by norm_num)]
    norm_num
  · exact (compliance_percentage_safe 1 0).2 le_rfl

end AssemblyFlow
